import Mathlib

/-!
Verification development for the s3-site-cache-optimizer pipeline
(`src/s3_site_cache_optimizer/optimize.py`).

Strings from the Python program are modelled as `List Char`, file contents
as `List Nat` (byte sequences).  The SHA-256 hex digest from `hashlib` is an
external library call and is therefore kept abstract: definitions take a
`digest : List Nat → List Char` parameter standing for
`sha256(bytes).hexdigest()`; theorems that need facts about its output
(hexadecimal alphabet) take them as hypotheses, which is faithful to the
real digest.
-/

abbrev Chars := List Char

/-! ### hashfile (optimize.py lines 31-40)

`hashfile(afile, hasher, blocksize=65536)` reads the file in blocks of
65536 bytes, feeds each block to `hasher.update`, and returns
`hasher.hexdigest()`.  A hashlib hasher absorbs the concatenation of all
update calls, so the hasher state is modelled as the list of absorbed
bytes and `hexdigest` as the abstract `digest` function applied to it.
The block reads are modelled by `readChunksF`, with fuel bounded by the
content length (each step consumes at least one byte, so fuel equal to the
length is always sufficient; the fuel-exhausted branch is unreachable). -/

def readChunksF : Nat → List Nat → List (List Nat)
  | _, [] => []
  | 0, l => [l]
  | fuel + 1, l => l.take 65536 :: readChunksF fuel (l.drop 65536)

def hashfile (digest : List Nat → Chars) (content : List Nat) : Chars :=
  digest ((readChunksF content.length content).foldl (fun st buf => st ++ buf) [])

/-- Alphabet of `sha256(...).hexdigest()`: lowercase hexadecimal. -/
def hexDigits : Chars := "0123456789abcdef".toList

/-- A stand-in digest used for concrete runs: byte content `[1]` hashes to
64 times `b`, everything else to 64 times `a` (64 lowercase hex characters,
like a real sha256 hexdigest). -/
def demoDigest : List Nat → Chars :=
  fun b => if b = [1] then List.replicate 64 'b' else List.replicate 64 'a'

/-- Concrete file contents for demonstration runs: the asset `as.css` holds
byte `[1]`, every other path holds byte `[0]`. -/
def demoContents : Chars → List Nat :=
  fun p => if p = "as.css".toList then [1] else [0]

/-! ### os.path.splitext and convert_filename (optimize.py lines 42-48)

CPython `posixpath.splitext(p)` finds the last `/` and the last `.` of
`p`; it splits at the last dot only when that dot lies after the last
separator and some character strictly between them is not a dot (so
leading dots of the basename never start an extension).

`basenameSplit p = (d, b)` splits `p` into the part up to and including
the last `/` and the separator-free basename.  `rsplitDot r` splits a
list at its first `.`, returning the dot-free part before it. -/

def basenameSplit (p : Chars) : Chars × Chars :=
  ((p.reverse.dropWhile (fun c => c != '/')).reverse,
   (p.reverse.takeWhile (fun c => c != '/')).reverse)

def rsplitDot : Chars → Option (Chars × Chars)
  | [] => none
  | c :: cs =>
    if c = '.' then some ([], cs)
    else (rsplitDot cs).map (fun pr => (c :: pr.1, pr.2))

def splitext (p : Chars) : Chars × Chars :=
  match rsplitDot (basenameSplit p).2.reverse with
  | none => (p, [])
  | some (x, y) =>
    if (y.reverse).any (fun c => c != '.') then
      ((basenameSplit p).1 ++ y.reverse, '.' :: x.reverse)
    else (p, [])

def convert_filename (filename filehash : Chars) : Chars :=
  (splitext filename).1 ++ '.' :: (filehash ++ (splitext filename).2)

/-! ### fnmatch (stdlib, used at optimize.py lines 120 and 128)

CPython `fnmatch.fnmatch(name, pat)` on POSIX (where `normcase` is the
identity) compiles the glob to a regex: `*` becomes `.*`, `?` becomes `.`,
`[...]` a character class (leading `!` negates; a `]` directly after the
optional `!` is part of the class; an unclosed `[` is a literal), every
other character is literal, and the whole name must match.

`scanClassClose` scans for the closing `]`, `splitClass` implements the
lookahead rules, `inClass` implements regex character-class membership
with `a-b` ranges, and `globMatchF` is the matcher.  Recursion is by fuel;
every recursive call consumes at least one pattern character, so fuel
`pat.length + 1` never runs out and the fuel-0 branch is unreachable. -/

def scanClassClose : Chars → Option (Chars × Chars)
  | [] => none
  | ']' :: t => some ([], t)
  | c :: t =>
    match scanClassClose t with
    | none => none
    | some (a, r) => some (c :: a, r)

def splitClass (ps : Chars) : Option (Bool × Chars × Chars) :=
  match ps with
  | '!' :: ']' :: t2 => (scanClassClose t2).map (fun pr => (true, ']' :: pr.1, pr.2))
  | '!' :: t => (scanClassClose t).map (fun pr => (true, pr.1, pr.2))
  | ']' :: t2 => (scanClassClose t2).map (fun pr => (false, ']' :: pr.1, pr.2))
  | t => (scanClassClose t).map (fun pr => (false, pr.1, pr.2))

def inClass : Chars → Char → Bool
  | a :: '-' :: b :: rest, c =>
    if a ≤ c ∧ c ≤ b then true else inClass rest c
  | a :: rest, c => if a = c then true else inClass rest c
  | [], _ => false

def globMatchF : Nat → Chars → Chars → Bool
  | 0, _, _ => false
  | fuel + 1, pat, s =>
    match pat, s with
    | [], t => t.isEmpty
    | '*' :: ps, t => (t.tails).any (fun suf => globMatchF fuel ps suf)
    | '?' :: _, [] => false
    | '?' :: ps, _ :: t => globMatchF fuel ps t
    | '[' :: ps, t =>
      match splitClass ps, t with
      | some _, [] => false
      | some (neg, cls, rest), c :: t2 => (inClass cls c != neg) && globMatchF fuel rest t2
      | none, [] => false
      | none, c :: t2 => (c = '[') && globMatchF fuel ps t2
    | _ :: _, [] => false
    | c :: ps, d :: t => (c = d) && globMatchF fuel ps t

def fnmatch (name pat : Chars) : Bool :=
  globMatchF (pat.length + 1) pat name

/-! ### Extension tables and exclusion test (optimize.py lines 92-93, 120, 128) -/

def assetsExtList : List Chars :=
  [".css".toList, ".svg".toList, ".ttf".toList, ".woff".toList, ".woff2".toList,
   ".otf".toList, ".eot".toList, ".png".toList, ".jpg".toList, ".jpeg".toList,
   ".gif".toList, ".js".toList]

def rewriteablesExtList : List Chars :=
  [".html".toList, ".htm".toList, ".js".toList, ".css".toList]

def matchesAny (exclude : List Chars) (relpath : Chars) : Bool :=
  exclude.any (fun pat => fnmatch relpath pat)

/-! ### Tree indexing (Optimizer._index_source_dir, optimize.py lines 110-142)

`os.walk(source_dir)` with `topdown=True` yields one
`(dirpath, dirnames, filenames)` triple per directory and descends into
every subdirectory listed in `dirnames` unless the caller mutates
`dirnames` in place; `_index_source_dir` never mutates it, so the walk
visits excluded directories too.  The walk output is taken as input here:
a `WalkEntry` holds the directory path relative to the source root as a
component list (empty for the root itself), plus the `dirnames` and
`filenames` listings.  `os.path.relpath(os.path.join(dirpath, n), source)`
is the components joined with `/`. -/

structure WalkEntry where
  dirpath : List Chars
  dirnames : List Chars
  filenames : List Chars
deriving DecidableEq

def joinRelPath (components : List Chars) : Chars :=
  (components.intersperse "/".toList).flatten

structure IndexState where
  subdirs : List Chars
  files : List Chars
  assets : List Chars
  rewritables : List Chars
deriving DecidableEq

def indexDirsStep (exclude : List Chars) (dirpath : List Chars)
    (st : IndexState) (d : Chars) : IndexState :=
  if matchesAny exclude (joinRelPath (dirpath ++ [d])) then st
  else { st with subdirs := st.subdirs ++ [joinRelPath (dirpath ++ [d])] }

def indexFilesStep (exclude : List Chars) (dirpath : List Chars)
    (st : IndexState) (f : Chars) : IndexState :=
  if matchesAny exclude (joinRelPath (dirpath ++ [f])) then st
  else
    let rp := joinRelPath (dirpath ++ [f])
    let st1 := { st with files := st.files ++ [rp] }
    let ext := (splitext f).2
    let st2 :=
      if assetsExtList.contains ext then { st1 with assets := st1.assets ++ [rp] } else st1
    if rewriteablesExtList.contains ext then { st2 with rewritables := st2.rewritables ++ [rp] }
    else st2

def indexEntryStep (exclude : List Chars) (st : IndexState) (e : WalkEntry) : IndexState :=
  e.filenames.foldl (indexFilesStep exclude e.dirpath)
    (e.dirnames.foldl (indexDirsStep exclude e.dirpath) st)

def indexSourceDir (exclude : List Chars) (entries : List WalkEntry) : IndexState :=
  entries.foldl (indexEntryStep exclude) ⟨[], [], [], []⟩

/-! ### Fingerprint calculation (Optimizer._calculate_fingerprints, lines 145-158)

For each key of `_assets_map` (iterated in registry order) the file is
opened in binary mode, hashed with `hashfile(f, sha256())`, and the record
gets `new_filename = convert_filename(fname, filehash)`.  `contents`
abstracts the filesystem read: the byte content of each relative path. -/

def calculateFingerprints (digest : List Nat → Chars) (contents : Chars → List Nat)
    (assets : List Chars) : List (Chars × Chars) :=
  assets.map (fun fname => (fname, convert_filename fname (hashfile digest (contents fname))))

/-- The asset map of a concrete run whose registry holds `s.css` and
`as.css`, in that registry order; note the first path is a substring of
the second. -/
def demoAssets : List (Chars × Chars) :=
  calculateFingerprints demoDigest demoContents ["s.css".toList, "as.css".toList]

/-! ### File materialization (Optimizer._write_files, optimize.py lines 175-213)

A rewritable file is processed line by line; for each line the loop
`for asset in assets: line = line.replace(asset, new)` applies Python
`str.replace` once per registered asset, in registry order.

`replaceAux pat rep skip s` models the `str.replace` scan for a nonempty
`pat`: it walks `s` left to right; while `skip > 0` the character belongs
to an already-matched occurrence and is consumed without output; at
`skip = 0`, if `pat` starts here the replacement is emitted and the
remaining `pat.length - 1` matched characters are scheduled to be
skipped, otherwise the character is copied.  This is the non-overlapping
left-to-right scan of CPython (the replacement text is never rescanned).
`str.replace` with an empty pattern never occurs in this program (asset
paths are nonempty); `replaceStr` maps that unused corner to the
identity. -/

def replaceAux (pat rep : Chars) : Nat → Chars → Chars
  | _, [] => []
  | k + 1, _ :: s => replaceAux pat rep k s
  | 0, c :: s =>
    if pat.isPrefixOf (c :: s) then rep ++ replaceAux pat rep (pat.length - 1) s
    else c :: replaceAux pat rep 0 s

def replaceStr (pat rep s : Chars) : Chars :=
  if pat = [] then s else replaceAux pat rep 0 s

def rewriteLine (m : List (Chars × Chars)) (line : Chars) : Chars :=
  m.foldl (fun l pr => replaceStr pr.1 pr.2 l) line

/-- Iterating a Python text file yields its lines with their trailing
newline kept; the last line has no newline when the file does not end
with one, and a trailing newline does not produce an extra empty line. -/
def linesAux : Chars → Chars → List Chars
  | acc, [] => if acc = [] then [] else [acc.reverse]
  | acc, c :: s =>
    if c = '\n' then (acc.reverse ++ ['\n']) :: linesAux [] s
    else linesAux (c :: acc) s

def splitLinesKeepNL (s : Chars) : List Chars :=
  linesAux [] s

def rewriteFileContent (m : List (Chars × Chars)) (content : Chars) : Chars :=
  ((splitLinesKeepNL content).map (rewriteLine m)).flatten

/-- Output of `_write_files` for each indexed file: the destination name is
the fingerprinted name when the file is an asset (a key of the asset map),
and files in the rewritable list get their content rewritten line by line
while all others are copied byte for byte. -/
def writeFiles (m : List (Chars × Chars)) (rewritables : List Chars)
    (contents : Chars → Chars) (files : List Chars) : List (Chars × Chars) :=
  files.map (fun src =>
    let dst := match m.lookup src with
      | some newname => newname
      | none => src
    if rewritables.contains src then (dst, rewriteFileContent m (contents src))
    else (dst, contents src))

/-! ### The rewrite-completeness specification relation (for claim C2)

`Rewritten m src out` holds exactly when `out` is `src` with every
occurrence of every registered asset path replaced by that asset's
fingerprinted path and all text not matching any asset path copied
byte-identically: a literal character may be copied only where no asset
path starts, and consuming an asset path emits its mapping. -/

inductive Rewritten (m : List (Chars × Chars)) : Chars → Chars → Prop where
  | nil : Rewritten m [] []
  | lit (c : Char) (s t : Chars) (hng : ∀ pr ∈ m, ¬ (pr.1 <+: (c :: s)))
      (h : Rewritten m s t) : Rewritten m (c :: s) (c :: t)
  | rep (pr : Chars × Chars) (hm : pr ∈ m) (s t : Chars)
      (h : Rewritten m s t) : Rewritten m (pr.1 ++ s) (pr.2 ++ t)

/-! ### Optimizer.__init__ (optimize.py lines 67-107) and main (lines 289-328)

The constructor validates the source and output directories and then binds
instance attributes; line 105 reads the bare name `skip_s3_upload`, which
is neither one of the six parameters, nor a local assigned earlier in the
body, nor a global of the module, so Python raises `NameError` there on
every call that passes validation.  The module globals are the imported
names, the dunder metadata, `logger`, and the module-level definitions.

The filesystem checks (`os.path.isdir`, `os.access`, `os.makedirs`,
`tempfile.mkdtemp`) are abstracted into an `FS` record. -/

structure FS where
  isdir : Chars → Bool
  readable : Chars → Bool
  writable : Chars → Bool
  makedirsOk : Chars → Bool
  mkdtempPath : Chars

inductive PyError where
  | optimizerError (msg : Chars)
  | nameError (nm : String)
  | typeError (msg : String)
  | notADirectoryError
deriving DecidableEq

def initScopeNames : List String :=
  ["self", "source_dir", "destination_bucket", "exclude", "output_dir",
   "aws_access_key_id", "aws_secret_access_key",
   "print_function", "sys", "argparse", "os", "logging", "fileinput",
   "connect_s3", "Key", "BotoClientError", "BotoServerError",
   "Requirement", "resource_filename", "require", "sha256", "copyfile",
   "fnmatch", "mkdtemp", "logger", "hashfile", "convert_filename",
   "OptimizerError", "Optimizer", "main"]

/-- The output-directory block of `__init__` (optimize.py lines 80-90):
an explicitly given output directory is created when missing (failure
raises `OptimizerError`) and must be writable; without one, `mkdtemp()`
provides a fresh temporary directory, unchecked. -/
def outputDirCheck (fs : FS) (output_dir : Option Chars) : Except PyError Chars :=
  match output_dir with
  | some od =>
    if !fs.isdir od ∧ !fs.makedirsOk od then
      .error (.optimizerError (od ++ " is not a directory and cannot be created".toList))
    else if !fs.writable od then
      .error (.optimizerError (od ++ " is not a writable dir".toList))
    else .ok od
  | none => .ok fs.mkdtempPath

def optimizerInit (fs : FS) (source_dir : Chars) (_destination_bucket : Chars)
    (_exclude : List Chars) (output_dir : Option Chars)
    (_aws_access_key_id _aws_secret_access_key : Option Chars) : Except PyError Unit :=
  if !fs.isdir source_dir then
    .error (.optimizerError (source_dir ++ " is not a valid path".toList))
  else if !fs.readable source_dir then
    .error (.optimizerError (source_dir ++ " is not a readable dir".toList))
  else
    match outputDirCheck fs output_dir with
    | .error e => .error e
    | .ok _ =>
      if initScopeNames.contains "skip_s3_upload" then .ok ()
      else .error (.nameError "skip_s3_upload")

/-- Keyword arguments supplied by `main` at optimize.py line 325. -/
def mainCallKeywords : List String :=
  ["exclude", "output_dir", "aws_access_key_id", "aws_secret_access_key", "skip_s3_upload"]

/-- Parameters of `Optimizer.__init__` that a keyword argument can bind. -/
def initKeywordParams : List String :=
  ["source_dir", "destination_bucket", "exclude", "output_dir",
   "aws_access_key_id", "aws_secret_access_key"]

/-- The constructor call in `main`: Python raises `TypeError` before the
body runs when a keyword argument matches no parameter. -/
def mainConstructOptimizer (fs : FS) (source_dir destination_bucket : Chars)
    (exclude : List Chars) (output_dir : Option Chars)
    (akid ask : Option Chars) : Except PyError Unit :=
  if mainCallKeywords.all (fun k => initKeywordParams.contains k) then
    optimizerInit fs source_dir destination_bucket exclude output_dir akid ask
  else
    .error (.typeError "unexpected keyword argument skip_s3_upload")

/-! ### Bucket synchronization (Optimizer._upload_to_bucket, lines 215-269)

The remote key listing initializes the delete-candidate list; the walk
over the output tree processes each file: its key (path relative to the
output root) is removed from the candidates (`list.remove`, first
occurrence, no-op when absent), `is_asset` is decided by
`os.path.splitext` on the basename, `bucket.get_key` is checked against
the current bucket state, and the file is uploaded (with the
cache-control header chosen by `is_asset`) when the key is absent or the
file is not an asset.  After the walk every remaining candidate key is
deleted in one `delete_keys` call. -/

def ccForever : Chars := "public, max-age=31556926".toList

def ccNoCache : Chars := "no-cache, max-age=0".toList

def isAssetName (relpath : Chars) : Bool :=
  assetsExtList.contains (splitext (basenameSplit relpath).2).2

structure SyncState where
  bucketKeys : List Chars
  toDelete : List Chars
  uploads : List (Chars × Chars)

def syncStep (st : SyncState) (relpath : Chars) : SyncState :=
  if !st.bucketKeys.contains relpath || !isAssetName relpath then
    { bucketKeys :=
        if st.bucketKeys.contains relpath then st.bucketKeys else st.bucketKeys ++ [relpath]
      toDelete := st.toDelete.erase relpath
      uploads := st.uploads ++ [(relpath, if isAssetName relpath then ccForever else ccNoCache)] }
  else { st with toDelete := st.toDelete.erase relpath }

def syncWalk (remoteKeys localFiles : List Chars) : SyncState :=
  localFiles.foldl syncStep ⟨remoteKeys, remoteKeys, []⟩

def finalRemoteKeys (remoteKeys localFiles : List Chars) : List Chars :=
  ((syncWalk remoteKeys localFiles).bucketKeys).filter
    (fun k => !(syncWalk remoteKeys localFiles).toDelete.contains k)

/-! ## Lemmas -/

/-! ### Indexing -/

theorem indexDirsStep_subdirs_mem {ex dp : List Chars} {st : IndexState} {d p : Chars}
    (h : p ∈ (indexDirsStep ex dp st d).subdirs) :
    p ∈ st.subdirs ∨ matchesAny ex p = false := by
  unfold indexDirsStep at h
  split at h
  · exact Or.inl h
  · rename_i hcond
    simp only [] at h
    rcases List.mem_append.mp h with h1 | h2
    · exact Or.inl h1
    · right
      rw [List.mem_singleton.mp h2]
      exact Bool.eq_false_iff.mpr hcond

theorem indexDirsStep_files_eq (ex dp : List Chars) (st : IndexState) (d : Chars) :
    (indexDirsStep ex dp st d).files = st.files := by
  unfold indexDirsStep
  split <;> rfl

theorem indexFilesStep_subdirs_eq (ex dp : List Chars) (st : IndexState) (f : Chars) :
    (indexFilesStep ex dp st f).subdirs = st.subdirs := by
  simp only [indexFilesStep]
  split
  · rfl
  · split
    · split <;> rfl
    · split <;> rfl

theorem indexFilesStep_files_mem {ex dp : List Chars} {st : IndexState} {f p : Chars}
    (h : p ∈ (indexFilesStep ex dp st f).files) :
    p ∈ st.files ∨ matchesAny ex p = false := by
  simp only [indexFilesStep] at h
  split at h
  · exact Or.inl h
  · rename_i hcond
    have hfe : ∀ q : Chars, q ∈ st.files ++ [joinRelPath (dp ++ [f])] →
        q ∈ st.files ∨ matchesAny ex q = false := by
      intro q hq
      rcases List.mem_append.mp hq with h1 | h2
      · exact Or.inl h1
      · right
        rw [List.mem_singleton.mp h2]
        exact Bool.eq_false_iff.mpr hcond
    split at h
    · split at h <;> exact hfe p h
    · split at h <;> exact hfe p h

theorem dirsFold_subdirs_mem {ex dp : List Chars} {p : Chars} :
    ∀ (ds : List Chars) (st : IndexState),
      p ∈ (ds.foldl (indexDirsStep ex dp) st).subdirs →
      p ∈ st.subdirs ∨ matchesAny ex p = false := by
  intro ds
  induction ds with
  | nil => intro st h; exact Or.inl h
  | cons d ds ih =>
    intro st h
    rw [List.foldl_cons] at h
    rcases ih _ h with h1 | h2
    · exact indexDirsStep_subdirs_mem h1
    · exact Or.inr h2

theorem dirsFold_files_eq (ex dp : List Chars) :
    ∀ (ds : List Chars) (st : IndexState),
      (ds.foldl (indexDirsStep ex dp) st).files = st.files := by
  intro ds
  induction ds with
  | nil => intro st; rfl
  | cons d ds ih =>
    intro st
    rw [List.foldl_cons, ih, indexDirsStep_files_eq]

theorem filesFold_subdirs_eq (ex dp : List Chars) :
    ∀ (fs : List Chars) (st : IndexState),
      (fs.foldl (indexFilesStep ex dp) st).subdirs = st.subdirs := by
  intro fs
  induction fs with
  | nil => intro st; rfl
  | cons f fs ih =>
    intro st
    rw [List.foldl_cons, ih, indexFilesStep_subdirs_eq]

theorem filesFold_files_mem {ex dp : List Chars} {p : Chars} :
    ∀ (fs : List Chars) (st : IndexState),
      p ∈ (fs.foldl (indexFilesStep ex dp) st).files →
      p ∈ st.files ∨ matchesAny ex p = false := by
  intro fs
  induction fs with
  | nil => intro st h; exact Or.inl h
  | cons f fs ih =>
    intro st h
    rw [List.foldl_cons] at h
    rcases ih _ h with h1 | h2
    · exact indexFilesStep_files_mem h1
    · exact Or.inr h2

theorem indexFold_subdirs_mem {ex : List Chars} {p : Chars} :
    ∀ (entries : List WalkEntry) (st : IndexState),
      p ∈ (entries.foldl (indexEntryStep ex) st).subdirs →
      p ∈ st.subdirs ∨ matchesAny ex p = false := by
  intro entries
  induction entries with
  | nil => intro st h; exact Or.inl h
  | cons e entries ih =>
    intro st h
    rw [List.foldl_cons] at h
    rcases ih _ h with h1 | h2
    · unfold indexEntryStep at h1
      rw [filesFold_subdirs_eq] at h1
      exact dirsFold_subdirs_mem _ _ h1
    · exact Or.inr h2

theorem indexFold_files_mem {ex : List Chars} {p : Chars} :
    ∀ (entries : List WalkEntry) (st : IndexState),
      p ∈ (entries.foldl (indexEntryStep ex) st).files →
      p ∈ st.files ∨ matchesAny ex p = false := by
  intro entries
  induction entries with
  | nil => intro st h; exact Or.inl h
  | cons e entries ih =>
    intro st h
    rw [List.foldl_cons] at h
    rcases ih _ h with h1 | h2
    · unfold indexEntryStep at h1
      rcases filesFold_files_mem _ _ h1 with h3 | h4
      · rw [dirsFold_files_eq] at h3
        exact Or.inl h3
      · exact Or.inr h4
    · exact Or.inr h2

/-! ### Chunked hashing -/

theorem foldl_append_eq_flatten {α : Type} (L : List (List α)) :
    ∀ init : List α, L.foldl (fun st buf => st ++ buf) init = init ++ L.flatten := by
  induction L with
  | nil => intro init; simp
  | cons x L ih => intro init; simp [List.foldl_cons, ih, List.append_assoc]

theorem readChunksF_flatten : ∀ (fuel : Nat) (l : List Nat), l.length ≤ fuel →
    (readChunksF fuel l).flatten = l := by
  intro fuel
  induction fuel with
  | zero =>
    intro l hl
    have : l = [] := List.length_eq_zero.mp (Nat.le_zero.mp hl)
    subst this; rfl
  | succ fuel ih =>
    intro l hl
    cases l with
    | nil => rfl
    | cons c t =>
      have hdrop : ((c :: t).drop 65536).length ≤ fuel := by
        simp only [List.length_drop]
        omega
      calc (readChunksF (fuel + 1) (c :: t)).flatten
          = (c :: t).take 65536 ++ (readChunksF fuel ((c :: t).drop 65536)).flatten := by
            simp [readChunksF]
        _ = (c :: t).take 65536 ++ (c :: t).drop 65536 := by rw [ih _ hdrop]
        _ = c :: t := List.take_append_drop _ _

/-- The streamed block-wise hash equals the digest of the whole byte
content: `hashfile` is independent of the read chunking. -/
theorem hashfile_eq_digest (digest : List Nat → Chars) (content : List Nat) :
    hashfile digest content = digest content := by
  unfold hashfile
  rw [foldl_append_eq_flatten, readChunksF_flatten _ _ (Nat.le_refl _)]
  rfl

/-! ### splitext -/

theorem mem_takeWhile_pred {α : Type} {p : α → Bool} :
    ∀ {l : List α} {x : α}, x ∈ l.takeWhile p → p x = true := by
  intro l
  induction l with
  | nil => intro x h; simp [List.takeWhile] at h
  | cons a t ih =>
    intro x h
    by_cases hp : p a = true
    · rw [List.takeWhile_cons, if_pos hp] at h
      rcases List.mem_cons.mp h with h1 | h2
      · subst h1; exact hp
      · exact ih h2
    · rw [List.takeWhile_cons, if_neg hp] at h
      simp at h

theorem takeWhile_all_append {α : Type} {p : α → Bool} :
    ∀ {l1 : List α} (l2 : List α), (∀ x ∈ l1, p x = true) →
      (l1 ++ l2).takeWhile p = l1 ++ l2.takeWhile p := by
  intro l1
  induction l1 with
  | nil => intro l2 _; simp
  | cons a t ih =>
    intro l2 h
    have ha : p a = true := h a (List.mem_cons_self a t)
    simp only [List.cons_append, List.takeWhile_cons, if_pos ha]
    rw [ih l2 (fun x hx => h x (List.mem_cons_of_mem a hx))]

theorem dropWhile_all_append {α : Type} {p : α → Bool} :
    ∀ {l1 : List α} (l2 : List α), (∀ x ∈ l1, p x = true) →
      (l1 ++ l2).dropWhile p = l2.dropWhile p := by
  intro l1
  induction l1 with
  | nil => intro l2 _; simp
  | cons a t ih =>
    intro l2 h
    have ha : p a = true := h a (List.mem_cons_self a t)
    simp only [List.cons_append, List.dropWhile_cons, if_pos ha]
    exact ih l2 (fun x hx => h x (List.mem_cons_of_mem a hx))

theorem dropWhile_head_false {α : Type} {p : α → Bool} :
    ∀ {l : List α} {c : α} {t : List α}, l.dropWhile p = c :: t → p c = false := by
  intro l
  induction l with
  | nil => intro c t h; simp [List.dropWhile] at h
  | cons a s ih =>
    intro c t h
    by_cases hp : p a = true
    · rw [List.dropWhile_cons, if_pos hp] at h
      exact ih h
    · rw [List.dropWhile_cons, if_neg hp] at h
      cases h
      exact Bool.eq_false_iff.mpr hp

theorem basenameSplit_parts {p d b : Chars} (h : basenameSplit p = (d, b)) :
    d ++ b = p ∧ (∀ c ∈ b, c ≠ '/') ∧ (d = [] ∨ ∃ d0, d = d0 ++ ['/']) := by
  have hd : d = (p.reverse.dropWhile (fun c => c != '/')).reverse := by
    have := congrArg Prod.fst h; simpa [basenameSplit] using this.symm
  have hb : b = (p.reverse.takeWhile (fun c => c != '/')).reverse := by
    have := congrArg Prod.snd h; simpa [basenameSplit] using this.symm
  refine ⟨?_, ?_, ?_⟩
  · rw [hd, hb, ← List.reverse_append, List.takeWhile_append_dropWhile, List.reverse_reverse]
  · intro c hc
    rw [hb, List.mem_reverse] at hc
    have := mem_takeWhile_pred hc
    simpa using this
  · rcases hdw : p.reverse.dropWhile (fun c => c != '/') with _ | ⟨c, t⟩
    · left; rw [hd, hdw]; rfl
    · right
      have hc : ((fun c => c != '/') c) = false :=
        dropWhile_head_false (p := fun c => c != '/') hdw
      have hc' : c = '/' := by simpa using hc
      refine ⟨t.reverse, ?_⟩
      rw [hd, hdw, List.reverse_cons, hc']

theorem basenameSplit_eq {d b : Chars} (hb : ∀ c ∈ b, c ≠ '/')
    (hd : d = [] ∨ ∃ d0, d = d0 ++ ['/']) :
    basenameSplit (d ++ b) = (d, b) := by
  have hball : ∀ c ∈ b.reverse, (fun c => c != '/') c = true := by
    intro c hc
    simpa using hb c (List.mem_reverse.mp hc)
  have htw : (b.reverse ++ d.reverse).takeWhile (fun c => c != '/') = b.reverse := by
    rw [takeWhile_all_append d.reverse hball]
    rcases hd with rfl | ⟨d0, rfl⟩
    · simp
    · rw [List.reverse_append]
      simp
  have hdw : (b.reverse ++ d.reverse).dropWhile (fun c => c != '/') = d.reverse := by
    rw [dropWhile_all_append d.reverse hball]
    rcases hd with rfl | ⟨d0, rfl⟩
    · simp
    · rw [List.reverse_append]
      simp
  simp [basenameSplit, List.reverse_append, htw, hdw]

theorem rsplitDot_of_form {x : Chars} (y : Chars) (hx : ∀ c ∈ x, c ≠ '.') :
    rsplitDot (x ++ '.' :: y) = some (x, y) := by
  induction x with
  | nil => simp [rsplitDot]
  | cons a t ih =>
    have ha : a ≠ '.' := hx a (List.mem_cons_self a t)
    simp only [List.cons_append, rsplitDot, if_neg ha, List.append_eq]
    rw [ih (fun c hc => hx c (List.mem_cons_of_mem a hc))]
    rfl

theorem rsplitDot_some_spec :
    ∀ {r x y : Chars}, rsplitDot r = some (x, y) → r = x ++ '.' :: y ∧ ∀ c ∈ x, c ≠ '.' := by
  intro r
  induction r with
  | nil => intro x y h; simp [rsplitDot] at h
  | cons a t ih =>
    intro x y h
    by_cases ha : a = '.'
    · subst ha
      have h2 : (some (([] : Chars), t) : Option (Chars × Chars)) = some (x, y) := by
        rw [← h]; simp [rsplitDot]
      have h3 := Option.some.inj h2
      have hx := (Prod.mk.inj h3).1
      have hy := (Prod.mk.inj h3).2
      subst hx; subst hy
      exact ⟨rfl, by intro c hc; simp at hc⟩
    · simp only [rsplitDot, if_neg ha] at h
      rcases hrt : rsplitDot t with _ | ⟨x', y'⟩
      · rw [hrt] at h; simp at h
      · rw [hrt] at h
        have h2 : (some (a :: x', y') : Option (Chars × Chars)) = some (x, y) := by
          rw [← h]; rfl
        have h3 := Option.some.inj h2
        have hx := (Prod.mk.inj h3).1
        have hy := (Prod.mk.inj h3).2
        obtain ⟨ht, hxd⟩ := ih hrt
        subst hx; subst hy
        constructor
        · rw [ht]; rfl
        · intro c hc
          rcases List.mem_cons.mp hc with rfl | hc2
          · exact ha
          · exact hxd c hc2

theorem lastDotSplit_inj {s1 t1 s2 t2 : Chars}
    (h : s1 ++ '.' :: t1 = s2 ++ '.' :: t2)
    (h1 : ∀ c ∈ t1, c ≠ '.') (h2 : ∀ c ∈ t2, c ≠ '.') :
    s1 = s2 ∧ t1 = t2 := by
  have hrev : t1.reverse ++ '.' :: s1.reverse = t2.reverse ++ '.' :: s2.reverse := by
    have := congrArg List.reverse h
    simpa [List.reverse_append, List.append_assoc] using this
  have e1 : rsplitDot (t1.reverse ++ '.' :: s1.reverse) = some (t1.reverse, s1.reverse) :=
    rsplitDot_of_form _ (fun c hc => h1 c (List.mem_reverse.mp hc))
  have e2 : rsplitDot (t2.reverse ++ '.' :: s2.reverse) = some (t2.reverse, s2.reverse) :=
    rsplitDot_of_form _ (fun c hc => h2 c (List.mem_reverse.mp hc))
  rw [hrev, e2] at e1
  have ht : t2.reverse = t1.reverse := (Prod.mk.inj (Option.some.inj e1)).1
  have hs : s2.reverse = s1.reverse := (Prod.mk.inj (Option.some.inj e1)).2
  exact ⟨(List.reverse_injective hs).symm, (List.reverse_injective ht).symm⟩

theorem splitext_parts (p : Chars) : (splitext p).1 ++ (splitext p).2 = p := by
  rcases hbs : basenameSplit p with ⟨d, b⟩
  obtain ⟨hdb, hbsep, hdshape⟩ := basenameSplit_parts hbs
  unfold splitext
  rw [hbs]
  rcases hr : rsplitDot b.reverse with _ | ⟨x, y⟩
  · simp
  · obtain ⟨hbrev, hxd⟩ := rsplitDot_some_spec hr
    by_cases hany : (y.reverse).any (fun c => c != '.') = true
    · simp only [hany, if_pos]
      have hb : b = y.reverse ++ '.' :: x.reverse := by
        have := congrArg List.reverse hbrev
        simpa [List.reverse_append, List.append_assoc] using this
      rw [List.append_assoc]
      rw [show ('.' :: x.reverse : Chars) = ['.'] ++ x.reverse from rfl] at hb
      rw [← List.append_assoc] at hb
      rw [show (y.reverse ++ ['.'] : Chars) ++ x.reverse = y.reverse ++ '.' :: x.reverse by simp] at hb
      rw [← hb, hdb]
    · simp only [hany]
      simp

theorem splitext_ext_shape (p : Chars) :
    (splitext p).2 = [] ∨
      ∃ e, (splitext p).2 = '.' :: e ∧ (∀ c ∈ e, c ≠ '.') ∧ (∀ c ∈ e, c ≠ '/') := by
  rcases hbs : basenameSplit p with ⟨d, b⟩
  obtain ⟨hdb, hbsep, hdshape⟩ := basenameSplit_parts hbs
  unfold splitext
  rw [hbs]
  rcases hr : rsplitDot b.reverse with _ | ⟨x, y⟩
  · left; rfl
  · obtain ⟨hbrev, hxd⟩ := rsplitDot_some_spec hr
    by_cases hany : (y.reverse).any (fun c => c != '.') = true
    · right
      refine ⟨x.reverse, by simp [hany], ?_, ?_⟩
      · intro c hc
        exact hxd c (List.mem_reverse.mp hc)
      · intro c hc
        have hcb : c ∈ b.reverse := by
          rw [hbrev]
          exact List.mem_append_left _ (List.mem_reverse.mp hc)
        exact hbsep c (List.mem_reverse.mp hcb)
    · left; simp [hany]

theorem splitext_stem_basename {p : Chars} (hne : (splitext p).2 ≠ []) :
    ((basenameSplit (splitext p).1).2).any (fun c => c != '.') = true := by
  rcases hbs : basenameSplit p with ⟨d, b⟩
  obtain ⟨hdb, hbsep, hdshape⟩ := basenameSplit_parts hbs
  rcases hr : rsplitDot b.reverse with _ | ⟨x, y⟩
  · exfalso; apply hne; simp [splitext, hbs, hr]
  · obtain ⟨hbrev, hxd⟩ := rsplitDot_some_spec hr
    by_cases hany : (y.reverse).any (fun c => c != '.') = true
    · have hsp : splitext p = (d ++ y.reverse, '.' :: x.reverse) := by
        simp [splitext, hbs, hr, hany]
      have hysep : ∀ c ∈ y.reverse, c ≠ '/' := by
        intro c hc
        have hcb : c ∈ b.reverse := by
          rw [hbrev]
          exact List.mem_append_right _ (List.mem_cons_of_mem _ (List.mem_reverse.mp hc))
        exact hbsep c (List.mem_reverse.mp hcb)
      rw [hsp]
      rw [basenameSplit_eq hysep hdshape]
      exact hany
    · exfalso; apply hne; simp [splitext, hbs, hr, hany]

theorem splitext_of_decomp {u v : Chars} (hvd : ∀ c ∈ v, c ≠ '.')
    (hvs : ∀ c ∈ v, c ≠ '/')
    (hbn : ((basenameSplit u).2).any (fun c => c != '.') = true) :
    splitext (u ++ '.' :: v) = (u, '.' :: v) := by
  rcases hbu : basenameSplit u with ⟨du, bu⟩
  obtain ⟨hdbu, hbusep, hdushape⟩ := basenameSplit_parts hbu
  have hsepfull : ∀ c ∈ bu ++ '.' :: v, c ≠ '/' := by
    intro c hc
    rcases List.mem_append.mp hc with hc1 | hc2
    · exact hbusep c hc1
    · rcases List.mem_cons.mp hc2 with rfl | hc3
      · intro hfalse; cases hfalse
      · exact hvs c hc3
  have hbsp : basenameSplit (u ++ '.' :: v) = (du, bu ++ '.' :: v) := by
    rw [← hdbu, List.append_assoc]
    exact basenameSplit_eq hsepfull hdushape
  have hrev : (bu ++ '.' :: v).reverse = v.reverse ++ '.' :: bu.reverse := by
    simp [List.reverse_append, List.append_assoc]
  have hrd : rsplitDot (bu ++ '.' :: v).reverse = some (v.reverse, bu.reverse) := by
    rw [hrev]
    exact rsplitDot_of_form _ (fun c hc => hvd c (List.mem_reverse.mp hc))
  unfold splitext
  rw [hbsp]
  simp only [hrd, List.reverse_reverse]
  rw [hbu] at hbn
  simp only [hbn, if_pos]
  rw [hdbu]

/-- Injectivity of the fingerprinted-name derivation: two asset paths with
hex (hence dot-free and separator-free) digests can only collide on
`convert_filename` when both path and digest coincide. -/
theorem convert_filename_inj {p1 p2 h1 h2 : Chars}
    (hd1 : ∀ c ∈ h1, c ≠ '.') (hs1 : ∀ c ∈ h1, c ≠ '/')
    (hd2 : ∀ c ∈ h2, c ≠ '.') (hs2 : ∀ c ∈ h2, c ≠ '/')
    (heq : convert_filename p1 h1 = convert_filename p2 h2) : p1 = p2 ∧ h1 = h2 := by
  have hp1 := splitext_parts p1
  have hp2 := splitext_parts p2
  unfold convert_filename at heq
  rcases splitext_ext_shape p1 with he1 | ⟨e1, he1, he1d, _⟩ <;>
    rcases splitext_ext_shape p2 with he2 | ⟨e2, he2, he2d, _⟩
  · -- both extensions empty
    rw [he1, he2, List.append_nil, List.append_nil] at heq
    obtain ⟨hs, hh⟩ := lastDotSplit_inj heq hd1 hd2
    rw [he1, List.append_nil] at hp1
    rw [he2, List.append_nil] at hp2
    exact ⟨by rw [← hp1, ← hp2, hs], hh⟩
  · -- ext1 empty, ext2 = '.' :: e2 : impossible
    exfalso
    rw [he1, he2, List.append_nil] at heq
    have heq2 : (splitext p1).1 ++ '.' :: h1 =
        ((splitext p2).1 ++ '.' :: h2) ++ '.' :: e2 := by
      rw [heq]; simp
    obtain ⟨hs, hh⟩ := lastDotSplit_inj heq2 hd1 he2d
    have hbn2 : ((basenameSplit (splitext p2).1).2).any (fun c => c != '.') = true :=
      splitext_stem_basename (by rw [he2]; simp)
    have hsp1 : splitext p1 = ((splitext p2).1, '.' :: h2) := by
      have : p1 = (splitext p2).1 ++ '.' :: h2 := by
        rw [← hp1, he1, List.append_nil, hs]
      rw [this]
      exact splitext_of_decomp hd2 hs2 hbn2
    have hcontr : (splitext p1).2 = '.' :: h2 := by rw [hsp1]
    rw [he1] at hcontr
    simp at hcontr
  · -- ext1 = '.' :: e1, ext2 empty : symmetric
    exfalso
    rw [he1, he2, List.append_nil] at heq
    have heq2 : (splitext p2).1 ++ '.' :: h2 =
        ((splitext p1).1 ++ '.' :: h1) ++ '.' :: e1 := by
      rw [← heq]; simp
    obtain ⟨hs, hh⟩ := lastDotSplit_inj heq2 hd2 he1d
    have hbn1 : ((basenameSplit (splitext p1).1).2).any (fun c => c != '.') = true :=
      splitext_stem_basename (by rw [he1]; simp)
    have hsp2 : splitext p2 = ((splitext p1).1, '.' :: h1) := by
      have : p2 = (splitext p1).1 ++ '.' :: h1 := by
        rw [← hp2, he2, List.append_nil, hs]
      rw [this]
      exact splitext_of_decomp hd1 hs1 hbn1
    have hcontr : (splitext p2).2 = '.' :: h1 := by rw [hsp2]
    rw [he2] at hcontr
    simp at hcontr
  · -- both extensions nonempty
    rw [he1, he2] at heq
    have heq2 : ((splitext p1).1 ++ '.' :: h1) ++ '.' :: e1 =
        ((splitext p2).1 ++ '.' :: h2) ++ '.' :: e2 := by
      simpa [List.append_assoc] using heq
    obtain ⟨hmid, hee⟩ := lastDotSplit_inj heq2 he1d he2d
    obtain ⟨hs, hh⟩ := lastDotSplit_inj hmid hd1 hd2
    refine ⟨?_, hh⟩
    rw [← hp1, ← hp2, he1, he2, hs, hee]

/-! ### str.replace and line rewriting -/

theorem replaceAux_skip (pat rep : Chars) :
    ∀ (s : Chars) (k : Nat), replaceAux pat rep k s = replaceAux pat rep 0 (s.drop k) := by
  intro s
  induction s with
  | nil => intro k; cases k <;> rfl
  | cons c s ih =>
    intro k
    cases k with
    | zero => rfl
    | succ k => simpa [replaceAux] using ih k

theorem replaceStr_cons (pat rep : Chars) (hpat : pat ≠ []) (c : Char) (s : Chars) :
    replaceStr pat rep (c :: s) =
      if pat.isPrefixOf (c :: s) then rep ++ replaceStr pat rep ((c :: s).drop pat.length)
      else c :: replaceStr pat rep s := by
  rcases pat with _ | ⟨a, t⟩
  · exact absurd rfl hpat
  · simp only [replaceStr, replaceAux]
    by_cases hpre : (a :: t).isPrefixOf (c :: s)
    · simp only [hpre, if_pos, if_true]
      rw [replaceAux_skip]
      rfl
    · simp [hpre]

theorem occurs_cons_of_occurs {p s : Chars} (c : Char) (h : p <:+: s) : p <:+: c :: s := by
  obtain ⟨u, v, huv⟩ := h
  exact ⟨c :: u, v, by rw [← huv]; rfl⟩

theorem replaceStr_of_no_occurrence {pat rep : Chars} :
    ∀ (s : Chars), ¬ pat <:+: s → replaceStr pat rep s = s := by
  by_cases hpat : pat = []
  · intro s _
    subst hpat
    rfl
  · intro s
    induction s with
    | nil =>
      intro _
      rcases pat with _ | ⟨a, t⟩
      · exact absurd rfl hpat
      · rfl
    | cons c s ih =>
      intro h
      have hnp : ¬ pat.isPrefixOf (c :: s) := by
        intro hp
        exact h (List.IsPrefix.isInfix (List.isPrefixOf_iff_prefix.mp hp))
      rw [replaceStr_cons pat rep hpat, if_neg hnp]
      rw [ih (fun hinf => h (occurs_cons_of_occurs c hinf))]

theorem rewriteLine_of_no_occurrence {m : List (Chars × Chars)} {line : Chars}
    (h : ∀ pr ∈ m, ¬ pr.1 <:+: line) : rewriteLine m line = line := by
  induction m with
  | nil => rfl
  | cons pr m ih =>
    show rewriteLine m (replaceStr pr.1 pr.2 line) = line
    rw [replaceStr_of_no_occurrence line (h pr (List.mem_cons_self pr m))]
    exact ih (fun q hq => h q (List.mem_cons_of_mem pr hq))

/-- Python `str.replace` with a single nonempty pattern realizes the
rewrite-completeness relation: every occurrence is replaced and all other
text is copied byte-identically. -/
theorem rewritten_single (pat rep : Chars) (hpat : pat ≠ []) :
    ∀ (s : Chars), Rewritten [(pat, rep)] s (replaceStr pat rep s) := by
  have main : ∀ (n : Nat) (s : Chars), s.length ≤ n →
      Rewritten [(pat, rep)] s (replaceStr pat rep s) := by
    intro n
    induction n with
    | zero =>
      intro s hs
      have : s = [] := List.length_eq_zero.mp (Nat.le_zero.mp hs)
      subst this
      rcases pat with _ | ⟨a, t⟩
      · exact absurd rfl hpat
      · exact Rewritten.nil
    | succ n ih =>
      intro s hs
      cases s with
      | nil =>
        rcases pat with _ | ⟨a, t⟩
        · exact absurd rfl hpat
        · exact Rewritten.nil
      | cons c s =>
        by_cases hpre : pat.isPrefixOf (c :: s)
        · obtain ⟨tail, htail⟩ := List.isPrefixOf_iff_prefix.mp hpre
          rw [replaceStr_cons pat rep hpat, if_pos hpre, ← htail, List.drop_left]
          have htl : tail.length ≤ n := by
            have hlen := congrArg List.length htail
            simp only [List.length_append] at hlen
            have hplen : 1 ≤ pat.length := by
              rcases pat with _ | ⟨a, t⟩
              · exact absurd rfl hpat
              · simp
            omega
          exact Rewritten.rep (pat, rep) (List.mem_cons_self _ _) tail _ (ih tail htl)
        · rw [replaceStr_cons pat rep hpat, if_neg hpre]
          have hng : ∀ pr ∈ [(pat, rep)], ¬ pr.1 <+: (c :: s) := by
            intro pr hpr hp
            rcases List.mem_cons.mp hpr with rfl | habs
            · exact hpre (List.isPrefixOf_iff_prefix.mpr hp)
            · simp at habs
          have hsl : s.length ≤ n := by
            simp only [List.length_cons] at hs
            omega
          exact Rewritten.lit c s _ hng (ih s hsl)
  intro s
  exact main s.length s (Nat.le_refl _)

theorem ends_nl_of_append {a s s0 : Chars} (hnl : ('\n' : Char) ∉ a)
    (h : a ++ s = s0 ++ ['\n']) : s ≠ [] ∧ ∃ s1, s = s1 ++ ['\n'] := by
  have hsne : s ≠ [] := by
    intro hs
    subst hs
    rw [List.append_nil] at h
    exact hnl (h ▸ List.mem_append_right s0 (List.mem_singleton.mpr rfl))
  refine ⟨hsne, ?_⟩
  have hrev : s.reverse ++ a.reverse = '\n' :: s0.reverse := by
    have := congrArg List.reverse h
    simpa [List.reverse_append] using this
  rcases hsr : s.reverse with _ | ⟨c, rest⟩
  · exact absurd (by simpa using congrArg List.reverse hsr) hsne
  · rw [hsr] at hrev
    have hc : c = '\n' := by
      have := congrArg (fun l => l.head?) hrev
      simpa using this
    refine ⟨rest.reverse, ?_⟩
    have : s = (c :: rest).reverse := by
      rw [← hsr, List.reverse_reverse]
    rw [this, List.reverse_cons, hc]

/-- Concatenating rewrites: when the first block ends with a newline and no
registered asset path contains a newline, no occurrence can span the
boundary, so derivations compose. -/
theorem rewritten_append {m : List (Chars × Chars)}
    (hnl : ∀ pr ∈ m, ('\n' : Char) ∉ pr.1) :
    ∀ {s1 t1 : Chars}, Rewritten m s1 t1 →
    ∀ {s2 t2 : Chars}, Rewritten m s2 t2 →
    (s1 = [] ∨ ∃ s0, s1 = s0 ++ ['\n']) →
    Rewritten m (s1 ++ s2) (t1 ++ t2) := by
  intro s1 t1 h1
  induction h1 with
  | nil =>
    intro s2 t2 h2 _
    exact h2
  | lit c s t hng h ih =>
    intro s2 t2 h2 hlast
    rcases hlast with habs | ⟨s0, hs0⟩
    · cases habs
    · have hng2 : ∀ pr ∈ m, ¬ pr.1 <+: (c :: (s ++ s2)) := by
        intro pr hpr hp
        have hcs : (c :: s : Chars) <+: (c :: s) ++ s2 := List.prefix_append _ _
        have hp2 : pr.1 <+: ((c :: s) ++ s2) := by
          simpa using hp
        rcases List.prefix_or_prefix_of_prefix hp2 hcs with hq | hq
        · exact hng pr hpr hq
        · have hmem : ('\n' : Char) ∈ (c :: s : Chars) := by
            rw [hs0]
            exact List.mem_append_right s0 (List.mem_singleton.mpr rfl)
          exact hnl pr hpr (hq.sublist.subset hmem)
      have hlast2 : s = [] ∨ ∃ s1, s = s1 ++ ['\n'] := by
        rcases s0 with _ | ⟨a, s0'⟩
        · left
          simpa using congrArg List.tail hs0
        · right
          refine ⟨s0', ?_⟩
          simpa using congrArg List.tail hs0
      exact Rewritten.lit c (s ++ s2) (t ++ t2) hng2 (ih h2 hlast2)
  | rep pr hpr s t h ih =>
    intro s2 t2 h2 hlast
    have hstep : Rewritten m (s ++ s2) (t ++ t2) := by
      rcases hlast with hnil | ⟨s0, hs0⟩
      · have hs : s = [] := (List.append_eq_nil.mp hnil).2
        subst hs
        exact ih h2 (Or.inl rfl)
      · rcases ends_nl_of_append (hnl pr hpr) hs0 with ⟨_, s1', hs1'⟩
        exact ih h2 (Or.inr ⟨s1', hs1'⟩)
    have := Rewritten.rep pr hpr (s ++ s2) (t ++ t2) hstep
    simpa [List.append_assoc] using this

/-! ### Line splitting -/

theorem flatten_linesAux : ∀ (s acc : Chars), (linesAux acc s).flatten = acc.reverse ++ s := by
  intro s
  induction s with
  | nil =>
    intro acc
    by_cases hacc : acc = []
    · subst hacc; rfl
    · simp [linesAux, hacc]
  | cons c s ih =>
    intro acc
    by_cases hc : c = '\n'
    · subst hc
      rw [show linesAux acc ('\n' :: s) = (acc.reverse ++ ['\n']) :: linesAux [] s from by
        simp [linesAux]]
      rw [List.flatten_cons, ih []]
      simp
    · rw [show linesAux acc (c :: s) = linesAux (c :: acc) s from by simp [linesAux, hc]]
      rw [ih (c :: acc)]
      simp

theorem linesAux_dropLast_nl :
    ∀ (s acc : Chars) (l : Chars), l ∈ (linesAux acc s).dropLast → ∃ l0, l = l0 ++ ['\n'] := by
  intro s
  induction s with
  | nil =>
    intro acc l hl
    by_cases hacc : acc = []
    · subst hacc; simp [linesAux] at hl
    · simp [linesAux, hacc] at hl
  | cons c s ih =>
    intro acc l hl
    by_cases hc : c = '\n'
    · subst hc
      rw [linesAux, if_pos rfl] at hl
      rcases hL : linesAux [] s with _ | ⟨y, L⟩
      · rw [hL] at hl; simp at hl
      · rw [hL, List.dropLast_cons₂] at hl
        rcases List.mem_cons.mp hl with rfl | hl2
        · exact ⟨acc.reverse, rfl⟩
        · apply ih [] l
          rw [hL]
          exact hl2
    · rw [linesAux, if_neg hc] at hl
      exact ih (c :: acc) l hl

theorem infix_of_mem_flatten {l : Chars} :
    ∀ {L : List Chars}, l ∈ L → l <:+: L.flatten := by
  intro L
  induction L with
  | nil => intro h; simp at h
  | cons x L ih =>
    intro h
    rcases List.mem_cons.mp h with rfl | h2
    · exact ⟨[], L.flatten, by simp⟩
    · obtain ⟨u, v, huv⟩ := ih h2
      exact ⟨x ++ u, v, by rw [List.flatten_cons, ← huv]; simp [List.append_assoc]⟩

theorem map_self_of_fixed {α : Type} {f : α → α} :
    ∀ {L : List α}, (∀ x ∈ L, f x = x) → L.map f = L := by
  intro L
  induction L with
  | nil => intro _; rfl
  | cons x L ih =>
    intro h
    simp only [List.map_cons, h x (List.mem_cons_self x L),
      ih (fun y hy => h y (List.mem_cons_of_mem x hy))]

/-- A rewritable file whose lines contain no occurrence of any registered
asset path is materialized byte-identically. -/
theorem rewriteFileContent_of_no_occurrence (m : List (Chars × Chars)) (content : Chars)
    (h : ∀ pr ∈ m, ¬ pr.1 <:+: content) : rewriteFileContent m content = content := by
  have hflat : (splitLinesKeepNL content).flatten = content := by
    simpa using flatten_linesAux content []
  have hlines : ∀ l ∈ splitLinesKeepNL content, rewriteLine m l = l := by
    intro l hl
    apply rewriteLine_of_no_occurrence
    intro pr hpr hinf
    exact h pr hpr (hinf.trans (hflat ▸ infix_of_mem_flatten hl))
  unfold rewriteFileContent
  rw [map_self_of_fixed hlines, hflat]

/-- File-level rewrite completeness for a single registered asset: the
line-by-line pass realizes the rewrite relation on the whole content,
because asset paths contain no newline and so no occurrence spans a line
boundary. -/
theorem rewritten_file_single (pat rep : Chars) (hpat : pat ≠ [])
    (hnl : ('\n' : Char) ∉ pat) (content : Chars) :
    Rewritten [(pat, rep)] content (rewriteFileContent [(pat, rep)] content) := by
  have hnl' : ∀ pr ∈ [(pat, rep)], ('\n' : Char) ∉ pr.1 := by
    intro pr hpr
    rcases List.mem_cons.mp hpr with rfl | habs
    · exact hnl
    · simp at habs
  have hline : ∀ (l : Chars), Rewritten [(pat, rep)] l (rewriteLine [(pat, rep)] l) := by
    intro l
    exact rewritten_single pat rep hpat l
  have general : ∀ (L : List Chars), (∀ l ∈ L.dropLast, ∃ l0, l = l0 ++ ['\n']) →
      Rewritten [(pat, rep)] L.flatten ((L.map (rewriteLine [(pat, rep)])).flatten) := by
    intro L
    induction L with
    | nil =>
      intro _
      exact Rewritten.nil
    | cons l L ih =>
      intro hend
      rcases L with _ | ⟨y, L2⟩
      · simpa using hline l
      · have hl0 : ∃ l0, l = l0 ++ ['\n'] := by
          apply hend l
          rw [List.dropLast_cons₂]
          exact List.mem_cons_self _ _
        have hrest : Rewritten [(pat, rep)] (y :: L2).flatten
            (((y :: L2).map (rewriteLine [(pat, rep)])).flatten) := by
          apply ih
          intro l2 hl2
          apply hend l2
          rw [List.dropLast_cons₂]
          exact List.mem_cons_of_mem _ hl2
        have := rewritten_append hnl' (hline l) hrest (Or.inr hl0)
        simpa using this
  have hflat : (splitLinesKeepNL content).flatten = content := by
    simpa using flatten_linesAux content []
  have hend : ∀ l ∈ (splitLinesKeepNL content).dropLast, ∃ l0, l = l0 ++ ['\n'] := by
    intro l hl
    exact linesAux_dropLast_nl content [] l hl
  have hmain := general (splitLinesKeepNL content) hend
  rw [hflat] at hmain
  exact hmain

/-! ### Bucket synchronization -/

theorem syncStep_toDelete (st : SyncState) (f : Chars) :
    (syncStep st f).toDelete = st.toDelete.erase f := by
  unfold syncStep
  split <;> rfl

theorem syncFold_toDelete :
    ∀ (fs : List Chars) (st : SyncState),
      (fs.foldl syncStep st).toDelete = fs.foldl List.erase st.toDelete := by
  intro fs
  induction fs with
  | nil => intro st; rfl
  | cons f fs ih =>
    intro st
    simp only [List.foldl_cons, ih, syncStep_toDelete]

theorem foldl_erase_mem {k : Chars} :
    ∀ (fs td : List Chars), td.Nodup →
      (k ∈ fs.foldl List.erase td ↔ k ∈ td ∧ k ∉ fs) := by
  intro fs
  induction fs with
  | nil => intro td _; simp
  | cons f fs ih =>
    intro td hnd
    rw [List.foldl_cons, ih (td.erase f) (hnd.erase f), hnd.mem_erase_iff]
    simp only [List.mem_cons]
    constructor
    · rintro ⟨⟨hkf, hktd⟩, hkfs⟩
      exact ⟨hktd, by rintro (rfl | h); exact hkf rfl; exact hkfs h⟩
    · rintro ⟨hktd, hnot⟩
      exact ⟨⟨fun hkf => hnot (Or.inl hkf), hktd⟩, fun h => hnot (Or.inr h)⟩

theorem syncFold_bucket_mono {k : Chars} :
    ∀ (fs : List Chars) (st : SyncState), k ∈ st.bucketKeys →
      k ∈ (fs.foldl syncStep st).bucketKeys := by
  intro fs
  induction fs with
  | nil => intro st h; exact h
  | cons f fs ih =>
    intro st h
    apply ih
    unfold syncStep
    split
    · simp only []
      split
      · exact h
      · exact List.mem_append_left _ h
    · exact h

theorem syncFold_uploads_mono {pr : Chars × Chars} :
    ∀ (fs : List Chars) (st : SyncState), pr ∈ st.uploads →
      pr ∈ (fs.foldl syncStep st).uploads := by
  intro fs
  induction fs with
  | nil => intro st h; exact h
  | cons f fs ih =>
    intro st h
    apply ih
    unfold syncStep
    split
    · exact List.mem_append_left _ h
    · exact h

theorem syncFold_uploads_headers :
    ∀ (fs : List Chars) (st : SyncState),
      (∀ pr ∈ st.uploads, pr.2 = (if isAssetName pr.1 then ccForever else ccNoCache)) →
      ∀ pr ∈ (fs.foldl syncStep st).uploads,
        pr.2 = (if isAssetName pr.1 then ccForever else ccNoCache) := by
  intro fs
  induction fs with
  | nil => intro st h; exact h
  | cons f fs ih =>
    intro st h
    apply ih
    intro pr hpr
    unfold syncStep at hpr
    split at hpr
    · simp only [] at hpr
      rcases List.mem_append.mp hpr with hold | hnew
      · exact h pr hold
      · have : pr = (f, if isAssetName f then ccForever else ccNoCache) := by
          simpa using hnew
        subst this
        rfl
    · exact h pr hpr

theorem contains_iff_mem_chars {l : List Chars} {a : Chars} :
    l.contains a = true ↔ a ∈ l := by
  simp

theorem syncStep_bucket_mono {k : Chars} (st : SyncState) (f : Chars)
    (h : k ∈ st.bucketKeys) : k ∈ (syncStep st f).bucketKeys := by
  unfold syncStep
  split
  · simp only []
    split
    · exact h
    · exact List.mem_append_left _ h
  · exact h

theorem syncFold_asset_existing_not_uploaded {f : Chars} (hA : isAssetName f = true) :
    ∀ (fs : List Chars) (st : SyncState), f ∈ st.bucketKeys →
      (∀ pr ∈ st.uploads, pr.1 ≠ f) →
      ∀ pr ∈ (fs.foldl syncStep st).uploads, pr.1 ≠ f := by
  intro fs
  induction fs with
  | nil => intro st _ h; exact h
  | cons g fs ih =>
    intro st hbk h
    rw [List.foldl_cons]
    apply ih
    · exact syncStep_bucket_mono st g hbk
    · intro pr hpr
      unfold syncStep at hpr
      split at hpr
      · rename_i hcond
        simp only [] at hpr
        rcases List.mem_append.mp hpr with hold | hnew
        · exact h pr hold
        · have hpr2 : pr = (g, if isAssetName g then ccForever else ccNoCache) := by
            simpa using hnew
          subst hpr2
          intro hgf
          simp only [] at hgf
          subst hgf
          rw [Bool.or_eq_true, Bool.not_eq_true', Bool.not_eq_true'] at hcond
          rcases hcond with hke | hA2
          · exact absurd (contains_iff_mem_chars.mpr hbk) (by rw [hke]; simp)
          · rw [hA] at hA2; cases hA2
      · exact h pr hpr

theorem syncFold_absent_uploaded {f : Chars} :
    ∀ (fs : List Chars) (st : SyncState), f ∈ fs → f ∉ st.bucketKeys →
      ∃ h, (f, h) ∈ (fs.foldl syncStep st).uploads := by
  intro fs
  induction fs with
  | nil => intro st h _; simp at h
  | cons g fs ih =>
    intro st hf hbk
    rw [List.foldl_cons]
    by_cases hgf : g = f
    · subst hgf
      refine ⟨if isAssetName g then ccForever else ccNoCache, ?_⟩
      apply syncFold_uploads_mono
      unfold syncStep
      have hcond : (!st.bucketKeys.contains g || !isAssetName g) = true := by
        have hcg : st.bucketKeys.contains g = false :=
          Bool.eq_false_iff.mpr (fun he => hbk (contains_iff_mem_chars.mp he))
        rw [hcg]
        simp
      rw [if_pos hcond]
      simp
    · rcases List.mem_cons.mp hf with rfl | hf2
      · exact absurd rfl hgf
      · apply ih _ hf2
        intro hmem
        apply hbk
        unfold syncStep at hmem
        split at hmem
        · simp only [] at hmem
          split at hmem
          · exact hmem
          · rcases List.mem_append.mp hmem with h1 | h2
            · exact h1
            · exact absurd (List.mem_singleton.mp h2).symm hgf
        · exact hmem

theorem syncFold_nonasset_uploaded {f : Chars} (hA : isAssetName f = false) :
    ∀ (fs : List Chars) (st : SyncState), f ∈ fs →
      ∃ h, (f, h) ∈ (fs.foldl syncStep st).uploads := by
  intro fs
  induction fs with
  | nil => intro st h; simp at h
  | cons g fs ih =>
    intro st hf
    rw [List.foldl_cons]
    rcases List.mem_cons.mp hf with rfl | hf2
    · refine ⟨if isAssetName f then ccForever else ccNoCache, ?_⟩
      apply syncFold_uploads_mono
      unfold syncStep
      have hcond : (!st.bucketKeys.contains f || !isAssetName f) = true := by
        simp [hA]
      rw [if_pos hcond]
      simp
    · exact ih _ hf2

theorem syncFold_local_in_bucket {f : Chars} :
    ∀ (fs : List Chars) (st : SyncState), f ∈ fs →
      f ∈ (fs.foldl syncStep st).bucketKeys := by
  intro fs
  induction fs with
  | nil => intro st h; simp at h
  | cons g fs ih =>
    intro st hf
    rw [List.foldl_cons]
    rcases List.mem_cons.mp hf with rfl | hf2
    · apply syncFold_bucket_mono
      by_cases hke : st.bucketKeys.contains f = true
      · exact syncStep_bucket_mono st f (contains_iff_mem_chars.mp hke)
      · unfold syncStep
        rw [Bool.not_eq_true] at hke
        have hcond : (!st.bucketKeys.contains f || !isAssetName f) = true := by
          rw [hke]
          simp
        rw [if_pos hcond]
        simp only []
        rw [if_neg (show ¬ st.bucketKeys.contains f = true by rw [hke]; simp)]
        exact List.mem_append_right _ (List.mem_singleton.mpr rfl)
    · exact ih _ hf2

/-! ## Claim theorems -/

/-- C1 counterexample: two assets with byte-identical content but different
original paths (`a.css` and `b.css`) get the same fingerprint but
different derived filenames, because `convert_filename` embeds the
original stem; so the claim that the derived filename is identical across
two same-content assets with different paths is false. -/
theorem C1_counterexample :
    hashfile (fun _ => List.replicate 64 'a') [0] =
      hashfile (fun _ => List.replicate 64 'a') [0] ∧
    "a.css".toList ≠ "b.css".toList ∧
    convert_filename "a.css".toList (hashfile (fun _ => List.replicate 64 'a') [0]) ≠
      convert_filename "b.css".toList (hashfile (fun _ => List.replicate 64 'a') [0]) := by
  refine ⟨rfl, by decide, by decide⟩

/-- C1 (amended): fingerprinting is deterministic — byte-identical contents
always produce the same fingerprint (the streamed block hash equals the
digest of the whole content, independent of chunking), and the derived
filename is identical across runs for the same original path; filenames of
same-content assets with different paths differ in general. -/
theorem C1_fingerprint_determinism (digest : List Nat → Chars) (c1 c2 : List Nat)
    (p1 p2 : Chars) (hc : c1 = c2) :
    hashfile digest c1 = hashfile digest c2 ∧
    hashfile digest c1 = digest c1 ∧
    (p1 = p2 →
      convert_filename p1 (hashfile digest c1) = convert_filename p2 (hashfile digest c2)) := by
  subst hc
  exact ⟨rfl, hashfile_eq_digest digest c1, fun hp => by rw [hp]⟩

theorem C1_fingerprint_determinism_witness :
    hashfile demoDigest [1, 2] = hashfile demoDigest [1, 2] ∧
    hashfile demoDigest [1, 2] = demoDigest [1, 2] ∧
    ("x.css".toList = "x.css".toList →
      convert_filename "x.css".toList (hashfile demoDigest [1, 2]) =
        convert_filename "x.css".toList (hashfile demoDigest [1, 2])) :=
  C1_fingerprint_determinism demoDigest [1, 2] [1, 2] "x.css".toList "x.css".toList rfl

/-- C3: every construction of an Optimizer fails before initialization
completes: each argument combination hits a validation `OptimizerError` or
reaches line 105 and raises `NameError` for the unbound name
`skip_s3_upload`; the CLI entry point additionally passes the keyword
`skip_s3_upload=`, which `Optimizer.__init__` does not accept, raising
`TypeError` — so the pipeline can never be run through the public
interface. -/
theorem C3_init_always_fails :
    (∀ (fs : FS) (src bucket : Chars) (ex : List Chars) (od : Option Chars)
        (ak sk : Option Chars),
      ∃ e, optimizerInit fs src bucket ex od ak sk = .error e) ∧
    (∀ (fs : FS) (src bucket : Chars) (ex : List Chars) (od : Option Chars)
        (ak sk : Option Chars),
      mainConstructOptimizer fs src bucket ex od ak sk =
        .error (.typeError "unexpected keyword argument skip_s3_upload")) ∧
    (∀ (fs : FS) (src bucket : Chars) (ex : List Chars) (ak sk : Option Chars),
      fs.isdir src = true → fs.readable src = true →
      optimizerInit fs src bucket ex none ak sk = .error (.nameError "skip_s3_upload")) := by
  refine ⟨?_, ?_, ?_⟩
  · intro fs src bucket ex od ak sk
    simp only [optimizerInit]
    split
    · exact ⟨_, rfl⟩
    · split
      · exact ⟨_, rfl⟩
      · split
        · exact ⟨_, rfl⟩
        · rw [if_neg (by decide)]
          exact ⟨_, rfl⟩
  · intro fs src bucket ex od ak sk
    unfold mainConstructOptimizer
    rw [if_neg (by decide)]
  · intro fs src bucket ex ak sk h1 h2
    simp only [optimizerInit]
    rw [if_neg (by rw [h1]; simp), if_neg (by rw [h2]; simp)]
    rfl

theorem C3_init_always_fails_witness :
    optimizerInit ⟨fun _ => true, fun _ => true, fun _ => true, fun _ => true, "tmp".toList⟩
        "site".toList "bucket".toList [] none none none =
      .error (.nameError "skip_s3_upload") :=
  C3_init_always_fails.2.2 _ _ _ _ _ _ rfl rfl

/-- C5: the original-path to fingerprinted-path mapping computed by
`_calculate_fingerprints` is injective over the asset set: two distinct
asset paths never derive the same fingerprinted filename, because the
digest is hexadecimal (dot-free and separator-free) and `convert_filename`
embeds the original stem and extension around it. -/
theorem C5_asset_map_injective (digest : List Nat → Chars) (contents : Chars → List Nat)
    (assets : List Chars)
    (hhex : ∀ (c : List Nat), ∀ ch ∈ digest c, ch ∈ hexDigits)
    (p1 p2 n1 n2 : Chars)
    (h1 : (p1, n1) ∈ calculateFingerprints digest contents assets)
    (h2 : (p2, n2) ∈ calculateFingerprints digest contents assets)
    (hne : p1 ≠ p2) : n1 ≠ n2 := by
  rcases List.mem_map.mp h1 with ⟨q1, hq1, he1⟩
  rcases List.mem_map.mp h2 with ⟨q2, hq2, he2⟩
  have hq1p : q1 = p1 := congrArg Prod.fst he1
  have hq2p : q2 = p2 := congrArg Prod.fst he2
  have hn1 : n1 = convert_filename p1 (hashfile digest (contents p1)) := by
    rw [← hq1p]
    exact (congrArg Prod.snd he1).symm
  have hn2 : n2 = convert_filename p2 (hashfile digest (contents p2)) := by
    rw [← hq2p]
    exact (congrArg Prod.snd he2).symm
  have hdigit : ∀ (c : List Nat), ∀ ch ∈ hashfile digest c, ch ∈ hexDigits := by
    intro c ch hch
    rw [hashfile] at hch
    exact hhex _ ch hch
  intro heq
  rw [hn1, hn2] at heq
  have hinj := convert_filename_inj
    (fun ch hch => by
      have := hdigit (contents p1) ch hch
      intro hd; rw [hd] at this; exact absurd this (by decide))
    (fun ch hch => by
      have := hdigit (contents p1) ch hch
      intro hd; rw [hd] at this; exact absurd this (by decide))
    (fun ch hch => by
      have := hdigit (contents p2) ch hch
      intro hd; rw [hd] at this; exact absurd this (by decide))
    (fun ch hch => by
      have := hdigit (contents p2) ch hch
      intro hd; rw [hd] at this; exact absurd this (by decide))
    heq
  exact hne hinj.1

theorem C5_asset_map_injective_witness :
    convert_filename "a.css".toList (hashfile demoDigest (demoContents "a.css".toList)) ≠
      convert_filename "b.css".toList (hashfile demoDigest (demoContents "b.css".toList)) := by
  have h := C5_asset_map_injective demoDigest demoContents
    ["a.css".toList, "b.css".toList]
    (by
      intro c ch hch
      simp only [demoDigest] at hch
      by_cases hc : c = [1]
      · rw [if_pos hc] at hch
        rw [List.eq_of_mem_replicate hch]
        decide
      · rw [if_neg hc] at hch
        rw [List.eq_of_mem_replicate hch]
        decide)
    "a.css".toList "b.css".toList _ _
    (List.mem_map.mpr ⟨"a.css".toList, by decide, rfl⟩)
    (List.mem_map.mpr ⟨"b.css".toList, by decide, rfl⟩)
    (by decide)
  exact h

/-- C6: the derived filename splices `.` plus the digest immediately before
the extension found by `os.path.splitext`: the new name is the stem, a
dot, the digest of the file bytes, and the original extension (which is
empty or a dot followed by dot-free text); a path without an extension
gets `.` plus the digest appended at the end. -/
theorem C6_filename_derivation (digest : List Nat → Chars) (contents : Chars → List Nat)
    (assets : List Chars) (p n : Chars)
    (hmem : (p, n) ∈ calculateFingerprints digest contents assets) :
    n = (splitext p).1 ++ '.' :: (hashfile digest (contents p) ++ (splitext p).2) ∧
    (splitext p).1 ++ (splitext p).2 = p ∧
    ((splitext p).2 = [] ∨ ∃ e, (splitext p).2 = '.' :: e ∧ ∀ c ∈ e, c ≠ '.') ∧
    ((splitext p).2 = [] → n = p ++ '.' :: hashfile digest (contents p)) := by
  rcases List.mem_map.mp hmem with ⟨q, hq, he⟩
  have hqp : q = p := congrArg Prod.fst he
  have hn : n = convert_filename p (hashfile digest (contents p)) := by
    rw [← hqp]
    exact (congrArg Prod.snd he).symm
  refine ⟨hn, splitext_parts p, ?_, ?_⟩
  · rcases splitext_ext_shape p with h | ⟨e, he2, hed, _⟩
    · exact Or.inl h
    · exact Or.inr ⟨e, he2, hed⟩
  · intro hext
    rw [hn, convert_filename, hext, List.append_nil]
    have hstem : (splitext p).1 = p := by
      have := splitext_parts p
      rwa [hext, List.append_nil] at this
    rw [hstem]

theorem C6_filename_derivation_witness :
    convert_filename "app.css".toList (hashfile demoDigest (demoContents "app.css".toList)) =
      (splitext "app.css".toList).1 ++ '.' ::
        (hashfile demoDigest (demoContents "app.css".toList) ++ (splitext "app.css".toList).2) ∧
    (splitext "app.css".toList).1 ++ (splitext "app.css".toList).2 = "app.css".toList ∧
    ((splitext "app.css".toList).2 = [] ∨
      ∃ e, (splitext "app.css".toList).2 = '.' :: e ∧ ∀ c ∈ e, c ≠ '.') ∧
    ((splitext "app.css".toList).2 = [] →
      convert_filename "app.css".toList (hashfile demoDigest (demoContents "app.css".toList)) =
        "app.css".toList ++ '.' :: hashfile demoDigest (demoContents "app.css".toList)) :=
  C6_filename_derivation demoDigest demoContents ["app.css".toList] _ _
    (List.mem_map.mpr ⟨"app.css".toList, by decide, rfl⟩)

/-- C7: during synchronization, a local file classified as an asset (by the
extension of its basename) is uploaded if and only if no remote object
already exists under its exact key; a non-asset file is always uploaded;
every uploaded asset carries `Cache-Control: public, max-age=31556926` and
every uploaded non-asset carries `Cache-Control: no-cache, max-age=0`. -/
theorem C7_upload_decision (remoteKeys localFiles : List Chars) (f : Chars)
    (hf : f ∈ localFiles) :
    (isAssetName f = true →
      ((∃ h, (f, h) ∈ (syncWalk remoteKeys localFiles).uploads) ↔ f ∉ remoteKeys)) ∧
    (isAssetName f = false → ∃ h, (f, h) ∈ (syncWalk remoteKeys localFiles).uploads) ∧
    (∀ g h, (g, h) ∈ (syncWalk remoteKeys localFiles).uploads →
      h = (if isAssetName g then ccForever else ccNoCache)) := by
  refine ⟨?_, ?_, ?_⟩
  · intro hA
    constructor
    · rintro ⟨h, hmem⟩ hremote
      have := syncFold_asset_existing_not_uploaded hA localFiles
        ⟨remoteKeys, remoteKeys, []⟩ hremote (by intro pr hpr; simp at hpr) (f, h) hmem
      exact this rfl
    · intro hremote
      exact syncFold_absent_uploaded localFiles ⟨remoteKeys, remoteKeys, []⟩ hf hremote
  · intro hA
    exact syncFold_nonasset_uploaded hA localFiles ⟨remoteKeys, remoteKeys, []⟩ hf
  · intro g h hmem
    exact syncFold_uploads_headers localFiles ⟨remoteKeys, remoteKeys, []⟩
      (by intro pr hpr; simp at hpr) (g, h) hmem

theorem C7_upload_decision_witness :
    (isAssetName "style.css".toList = true →
      ((∃ h, ("style.css".toList, h) ∈
          (syncWalk [] ["style.css".toList, "index.html".toList]).uploads) ↔
        "style.css".toList ∉ ([] : List Chars))) ∧
    (isAssetName "style.css".toList = false →
      ∃ h, ("style.css".toList, h) ∈
        (syncWalk [] ["style.css".toList, "index.html".toList]).uploads) ∧
    (∀ g h, (g, h) ∈ (syncWalk [] ["style.css".toList, "index.html".toList]).uploads →
      h = (if isAssetName g then ccForever else ccNoCache)) :=
  C7_upload_decision [] ["style.css".toList, "index.html".toList] "style.css".toList
    (by decide)

/-- C8: after the output-tree walk, exactly the remote keys that equal no
local relative path are deleted; keys of local files are never deleted and
remain in the final remote set, and every deleted key is absent from the
final remote set — so a stale `old.hash1.css` is removed while the current
`old.hash2.css` stays. -/
theorem C8_stale_deletion (remoteKeys localFiles : List Chars)
    (hnd : remoteKeys.Nodup) :
    (∀ k, k ∈ (syncWalk remoteKeys localFiles).toDelete ↔
      (k ∈ remoteKeys ∧ k ∉ localFiles)) ∧
    (∀ k ∈ localFiles, k ∈ finalRemoteKeys remoteKeys localFiles) ∧
    (∀ k ∈ (syncWalk remoteKeys localFiles).toDelete,
      k ∉ finalRemoteKeys remoteKeys localFiles) := by
  have htd : (syncWalk remoteKeys localFiles).toDelete =
      localFiles.foldl List.erase remoteKeys := by
    unfold syncWalk
    rw [syncFold_toDelete]
  have hchar : ∀ k, k ∈ (syncWalk remoteKeys localFiles).toDelete ↔
      (k ∈ remoteKeys ∧ k ∉ localFiles) := by
    intro k
    rw [htd]
    exact foldl_erase_mem localFiles remoteKeys hnd
  refine ⟨hchar, ?_, ?_⟩
  · intro k hk
    unfold finalRemoteKeys
    rw [List.mem_filter]
    constructor
    · exact syncFold_local_in_bucket localFiles ⟨remoteKeys, remoteKeys, []⟩ hk
    · have hnotdel : k ∉ (syncWalk remoteKeys localFiles).toDelete := by
        rw [hchar k]
        rintro ⟨_, habs⟩
        exact habs hk
      simp only [Bool.not_eq_true']
      exact Bool.eq_false_iff.mpr (fun hc => hnotdel (contains_iff_mem_chars.mp hc))
  · intro k hk
    unfold finalRemoteKeys
    rw [List.mem_filter]
    rintro ⟨_, hcond⟩
    simp only [Bool.not_eq_true'] at hcond
    exact absurd (contains_iff_mem_chars.mpr hk) (by rw [hcond]; simp)

theorem C8_stale_deletion_witness :
    "old.bbbb.css".toList ∈ finalRemoteKeys ["old.aaaa.css".toList] ["old.bbbb.css".toList] ∧
    "old.aaaa.css".toList ∉ finalRemoteKeys ["old.aaaa.css".toList] ["old.bbbb.css".toList] := by
  have h := C8_stale_deletion ["old.aaaa.css".toList] ["old.bbbb.css".toList] (by decide)
  refine ⟨h.2.1 _ (by decide), h.2.2 _ ?_⟩
  rw [h.1]
  decide

/-- C4 counterexample: `os.walk` with `topdown=True` descends into every
directory unless the caller prunes `dirnames` in place, and
`_index_source_dir` never prunes it; so for the source tree containing
only `secret/a.css` with exclusion pattern `secret`, the walk also yields
the entry for the `secret` directory itself.  The directory `secret`
matches the pattern and is absent from the indexed subdirectories, yet the
file `secret/a.css` beneath it does not match and IS indexed — refuting
the claim that files beneath an excluded directory are absent from the
indexed sets. -/
theorem C4_counterexample :
    fnmatch "secret".toList "secret".toList = true ∧
    "secret".toList ∉
      (indexSourceDir ["secret".toList]
        [⟨[], ["secret".toList], []⟩,
         ⟨["secret".toList], [], ["a.css".toList]⟩]).subdirs ∧
    "secret/a.css".toList ∈
      (indexSourceDir ["secret".toList]
        [⟨[], ["secret".toList], []⟩,
         ⟨["secret".toList], [], ["a.css".toList]⟩]).files ∧
    matchesAny ["secret".toList] "secret/a.css".toList = false := by
  refine ⟨by decide, by decide, by decide, by decide⟩

/-- C4 (amended): every path that matches an exclusion pattern is absent
from the indexed file and directory sets; however the indexer still
descends into matched directories, so a file beneath an excluded directory
is indexed unless its own relative path matches a pattern. -/
theorem C4_excluded_paths_absent (exclude : List Chars) (entries : List WalkEntry) :
    (∀ p ∈ (indexSourceDir exclude entries).subdirs, matchesAny exclude p = false) ∧
    (∀ p ∈ (indexSourceDir exclude entries).files, matchesAny exclude p = false) := by
  constructor
  · intro p hp
    rcases indexFold_subdirs_mem entries _ hp with h | h
    · simp at h
    · exact h
  · intro p hp
    rcases indexFold_files_mem entries _ hp with h | h
    · simp at h
    · exact h

theorem C4_excluded_paths_absent_witness :
    matchesAny ["secret".toList] "a.css".toList = false :=
  (C4_excluded_paths_absent ["secret".toList]
    [⟨[], [], ["a.css".toList]⟩]).2 "a.css".toList (by decide)

theorem append_tail_ne {t1 t2 : Chars} (k : Nat) (h1 : k ≤ t1.length) (h2 : k ≤ t2.length)
    (hne : t1.reverse.take k ≠ t2.reverse.take k) (a b : Chars) : a ++ t1 ≠ b ++ t2 := by
  intro he
  apply hne
  have hrev := congrArg List.reverse he
  rw [List.reverse_append, List.reverse_append] at hrev
  have htake := congrArg (List.take k) hrev
  rwa [List.take_append_of_le_length (by simpa using h1),
    List.take_append_of_le_length (by simpa using h2)] at htake

/-- C9 counterexample: with a source root that is not a directory the
constructor raises `OptimizerError` with message `... is not a valid
path`, not `NotADirectoryError`; the name `NotADirectoryError` appears
nowhere in the program. -/
theorem C9_counterexample :
    optimizerInit ⟨fun _ => false, fun _ => false, fun _ => false, fun _ => false, []⟩
        "site".toList "bucket".toList [] none none none =
      .error (.optimizerError ("site".toList ++ " is not a valid path".toList)) ∧
    (Except.error (PyError.optimizerError ("site".toList ++ " is not a valid path".toList)) :
        Except PyError Unit) ≠
      .error .notADirectoryError := by
  refine ⟨rfl, by simp⟩

/-- C9 (amended): source-root validation happens in the constructor and
raises `OptimizerError` — message `<path> is not a valid path` when the
root is not a directory, `<path> is not a readable dir` when it is not
readable; for every readable source directory neither of these two errors
is raised (the construction then fails for an unrelated reason, C3). -/
theorem C9_source_validation (fs : FS) (src bucket : Chars) (ex : List Chars)
    (od : Option Chars) (ak sk : Option Chars) :
    (fs.isdir src = false →
      optimizerInit fs src bucket ex od ak sk =
        .error (.optimizerError (src ++ " is not a valid path".toList))) ∧
    (fs.isdir src = true → fs.readable src = false →
      optimizerInit fs src bucket ex od ak sk =
        .error (.optimizerError (src ++ " is not a readable dir".toList))) ∧
    (fs.isdir src = true → fs.readable src = true →
      optimizerInit fs src bucket ex od ak sk ≠
        .error (.optimizerError (src ++ " is not a valid path".toList)) ∧
      optimizerInit fs src bucket ex od ak sk ≠
        .error (.optimizerError (src ++ " is not a readable dir".toList))) := by
  refine ⟨?_, ?_, ?_⟩
  · intro h1
    simp only [optimizerInit]
    rw [if_pos (by rw [h1]; simp)]
  · intro h1 h2
    simp only [optimizerInit]
    rw [if_neg (by rw [h1]; simp), if_pos (by rw [h2]; simp)]
  · intro h1 h2
    have hstage : optimizerInit fs src bucket ex od ak sk =
          .error (.nameError "skip_s3_upload") ∨
        ∃ o, optimizerInit fs src bucket ex od ak sk =
            .error (.optimizerError (o ++ " is not a directory and cannot be created".toList)) ∨
          optimizerInit fs src bucket ex od ak sk =
            .error (.optimizerError (o ++ " is not a writable dir".toList)) := by
      simp only [optimizerInit]
      rw [if_neg (by rw [h1]; simp), if_neg (by rw [h2]; simp)]
      rcases od with _ | o
      · left
        rfl
      · have hrfl : outputDirCheck fs (some o) =
            (if (!fs.isdir o) = true ∧ (!fs.makedirsOk o) = true then
              Except.error (PyError.optimizerError
                (o ++ " is not a directory and cannot be created".toList))
            else if (!fs.writable o) = true then
              Except.error (PyError.optimizerError (o ++ " is not a writable dir".toList))
            else Except.ok o) := rfl
        by_cases h3 : ((!fs.isdir o) = true ∧ (!fs.makedirsOk o) = true)
        · right
          refine ⟨o, Or.inl ?_⟩
          rw [hrfl, if_pos h3]
        · by_cases h4 : (!fs.writable o) = true
          · right
            refine ⟨o, Or.inr ?_⟩
            rw [hrfl, if_neg h3, if_pos h4]
          · left
            rw [hrfl, if_neg h3, if_neg h4]
            rw [if_neg (by decide)]
    rcases hstage with hn | ⟨o, ho | ho⟩
    · rw [hn]
      constructor <;> simp
    · rw [ho]
      constructor <;> intro he <;>
        (have hmsg := PyError.optimizerError.inj (Except.error.inj he))
      · exact append_tail_ne 1 (by decide) (by decide) (by decide) o src hmsg
      · exact append_tail_ne 1 (by decide) (by decide) (by decide) o src hmsg
    · rw [ho]
      constructor <;> intro he <;>
        (have hmsg := PyError.optimizerError.inj (Except.error.inj he))
      · exact append_tail_ne 1 (by decide) (by decide) (by decide) o src hmsg
      · exact append_tail_ne 22 (by decide) (by decide) (by decide) o src hmsg

theorem C9_source_validation_witness :
    optimizerInit ⟨fun _ => false, fun _ => true, fun _ => true, fun _ => true, []⟩
        "site".toList "bucket".toList [] none none none =
      .error (.optimizerError ("site".toList ++ " is not a valid path".toList)) :=
  (C9_source_validation ⟨fun _ => false, fun _ => true, fun _ => true, fun _ => true, []⟩
    "site".toList "bucket".toList [] none none none).1 rfl

/-- C2 counterexample: with the registered assets `s.css` and `as.css` (in
registry order) the per-line pass of `_write_files` applied to the line
`as.css` first replaces the embedded occurrence of `s.css`, producing
`as.` followed by the hash of `s.css` and `.css`; the occurrence of the
asset `as.css` is destroyed and never replaced by its own fingerprinted
path, so the produced output does not satisfy the claimed
every-occurrence-replaced relation. -/
theorem C2_counterexample :
    ¬ Rewritten demoAssets "as.css".toList
        (rewriteFileContent demoAssets "as.css".toList) := by
  have hm : demoAssets =
      [("s.css".toList, convert_filename "s.css".toList (List.replicate 64 'a')),
       ("as.css".toList, convert_filename "as.css".toList (List.replicate 64 'b'))] := by
    decide
  have hnil : ∀ (src out : Chars), Rewritten demoAssets src out → src = [] → out = [] := by
    intro src out h
    cases h with
    | nil => intro _; rfl
    | lit c s t hng h2 => intro hsrc; exact absurd hsrc (by simp)
    | rep pr hmem s t h2 =>
      intro hsrc
      obtain ⟨hp1, hs⟩ := List.append_eq_nil.mp hsrc
      rw [hm] at hmem
      rcases List.mem_cons.mp hmem with rfl | hmem2
      · exact absurd hp1 (by decide)
      · rcases List.mem_cons.mp hmem2 with rfl | h3
        · exact absurd hp1 (by decide)
        · simp at h3
  have key : ∀ (src out : Chars), Rewritten demoAssets src out → src = "as.css".toList →
      out = convert_filename "as.css".toList (List.replicate 64 'b') := by
    intro src out h
    cases h with
    | nil => intro hsrc; exact absurd hsrc (by decide)
    | lit c s t hng h2 =>
      intro hsrc
      have hmem2 : ("as.css".toList, convert_filename "as.css".toList (List.replicate 64 'b'))
          ∈ demoAssets := by
        rw [hm]
        exact List.mem_cons_of_mem _ (List.mem_cons_self _ _)
      have hpre : ("as.css".toList,
          convert_filename "as.css".toList (List.replicate 64 'b')).1 <+: (c :: s) := by
        rw [hsrc]
      exact absurd hpre (hng _ hmem2)
    | rep pr hmem s t h2 =>
      intro hsrc
      rw [hm] at hmem
      rcases List.mem_cons.mp hmem with rfl | hmem2
      · have hh : (some 's' : Option Char) = some 'a' := congrArg List.head? hsrc
        exact absurd hh (by decide)
      · rcases List.mem_cons.mp hmem2 with rfl | h3
        · have hs : s = [] := by
            apply List.append_cancel_left
            rw [show ("as.css".toList ++ [] : Chars) = "as.css".toList from List.append_nil _]
            exact hsrc
          subst hs
          have ht : t = [] := hnil [] t h2 rfl
          rw [ht]
          simp
        · simp at h3
  intro h
  have hv := key _ _ h rfl
  exact absurd hv (by decide)

/-- C2 (amended): the per-line substitution pass is complete for a single
registered asset — the materialized output of a rewritable file is exactly
the source with every occurrence of that asset path replaced by its
fingerprinted path and all other text byte-identical (asset paths are
nonempty and contain no newline, so no occurrence spans a line boundary);
a file containing no occurrence of any registered asset path is emitted
byte-identically; and `_write_files` materializes each rewritable file as
its rewritten content under its destination name.  With several assets
where one path is a substring of another, an earlier replacement can
destroy a later occurrence (see the counterexample), which the code
tolerates without guaranteeing completeness. -/
theorem C2_rewrite_single_asset (a : Chars × Chars) (content : Chars)
    (m : List (Chars × Chars))
    (hne : a.1 ≠ []) (hnl : ('\n' : Char) ∉ a.1)
    (hnoc : ∀ pr ∈ m, ¬ pr.1 <:+: content) :
    Rewritten [a] content (rewriteFileContent [a] content) ∧
    rewriteFileContent m content = content ∧
    (∀ (rewritables files : List Chars) (contents : Chars → Chars) (f : Chars),
      f ∈ files → rewritables.contains f = true →
      ((match m.lookup f with | some nn => nn | none => f),
        rewriteFileContent m (contents f)) ∈ writeFiles m rewritables contents files) := by
  refine ⟨rewritten_file_single a.1 a.2 hne hnl content,
    rewriteFileContent_of_no_occurrence m content hnoc, ?_⟩
  intro rewritables files contents f hf hrw
  apply List.mem_map.mpr
  refine ⟨f, hf, ?_⟩
  simp only [writeFiles, hrw, if_pos]

theorem C2_rewrite_single_asset_witness :
    Rewritten [("s.css".toList, "s.HASH.css".toList)] "a href s.css end".toList
      (rewriteFileContent [("s.css".toList, "s.HASH.css".toList)] "a href s.css end".toList) ∧
    rewriteFileContent [("zz.css".toList, "zz.HASH.css".toList)] "a href s.css end".toList =
      "a href s.css end".toList ∧
    (∀ (rewritables files : List Chars) (contents : Chars → Chars) (f : Chars),
      f ∈ files → rewritables.contains f = true →
      ((match ([("zz.css".toList, "zz.HASH.css".toList)] : List (Chars × Chars)).lookup f with
          | some nn => nn | none => f),
        rewriteFileContent [("zz.css".toList, "zz.HASH.css".toList)] (contents f)) ∈
        writeFiles [("zz.css".toList, "zz.HASH.css".toList)] rewritables contents files) :=
  C2_rewrite_single_asset ("s.css".toList, "s.HASH.css".toList) "a href s.css end".toList
    [("zz.css".toList, "zz.HASH.css".toList)] (by decide) (by decide)
    (by
      intro pr hpr
      rcases List.mem_cons.mp hpr with rfl | h3
      · intro hinf
        rcases hinf with ⟨u, v, huv⟩
        have hlen := congrArg List.length huv
        simp at hlen
        have hcnt := congrArg (List.count 'z') huv
        simp [List.count_append] at hcnt
      · simp at h3)

/-- C10 counterexample: substitutions are applied in asset-registry order,
which is the directory-walk listing order — not a sorted order.  Two runs
over the same set of files whose walk enumerates them in different orders
build the registries `[s.css, as.css]` and `[as.css, s.css]`, and on the
line `as.css` (one asset path a substring of the other) the two orders
produce different output bytes. -/
theorem C10_counterexample :
    (["s.css".toList, "as.css".toList] : List Chars).Perm
      ["as.css".toList, "s.css".toList] ∧
    (indexSourceDir [] [⟨[], [], ["s.css".toList, "as.css".toList]⟩]).assets =
      ["s.css".toList, "as.css".toList] ∧
    (indexSourceDir [] [⟨[], [], ["as.css".toList, "s.css".toList]⟩]).assets =
      ["as.css".toList, "s.css".toList] ∧
    rewriteLine (calculateFingerprints demoDigest demoContents
        (indexSourceDir [] [⟨[], [], ["s.css".toList, "as.css".toList]⟩]).assets)
      "as.css".toList ≠
    rewriteLine (calculateFingerprints demoDigest demoContents
        (indexSourceDir [] [⟨[], [], ["as.css".toList, "s.css".toList]⟩]).assets)
      "as.css".toList := by
  refine ⟨?_, by decide, by decide, by decide⟩
  have h := List.Perm.swap "as.css".toList "s.css".toList []
  exact h

/-- C10 (amended): the rewrite output is a deterministic function of the
registry enumeration order, but not of the asset set alone: permuting the
enumeration can change the bytes when one asset path is a substring of
another (see counterexample).  A line in which no registered asset path
occurs is emitted byte-identically under every enumeration order. -/
theorem C10_order_determinism (m m2 : List (Chars × Chars)) (line : Chars)
    (hperm : m.Perm m2) (hnoc : ∀ pr ∈ m, ¬ pr.1 <:+: line) :
    rewriteLine m line = line ∧ rewriteLine m2 line = line := by
  have hnoc2 : ∀ pr ∈ m2, ¬ pr.1 <:+: line := by
    intro pr hpr
    exact hnoc pr (hperm.mem_iff.mpr hpr)
  exact ⟨rewriteLine_of_no_occurrence hnoc, rewriteLine_of_no_occurrence hnoc2⟩

theorem C10_order_determinism_witness :
    rewriteLine [("a.css".toList, "a.H.css".toList), ("b.css".toList, "b.H.css".toList)]
      "plain text".toList = "plain text".toList ∧
    rewriteLine [("b.css".toList, "b.H.css".toList), ("a.css".toList, "a.H.css".toList)]
      "plain text".toList = "plain text".toList :=
  C10_order_determinism
    [("a.css".toList, "a.H.css".toList), ("b.css".toList, "b.H.css".toList)]
    [("b.css".toList, "b.H.css".toList), ("a.css".toList, "a.H.css".toList)]
    "plain text".toList
    (List.Perm.swap ("b.css".toList, "b.H.css".toList) ("a.css".toList, "a.H.css".toList) [])
    (by
      intro pr hpr hinf
      rcases hinf with ⟨u, v, huv⟩
      rcases List.mem_cons.mp hpr with rfl | h2
      · have hcnt := congrArg (List.count '.') huv
        simp [List.count_append] at hcnt
      · rcases List.mem_cons.mp h2 with rfl | h3
        · have hcnt := congrArg (List.count '.') huv
          simp [List.count_append] at hcnt
        · simp at h3)
